import Mathlib

/-!
Shallow embedding of the memory ranking and conversation context engine of
the Mentor repository: `src/memory.py` (`MemoryManager.retrieve`,
`MemoryManager.fetch_recent`), `src/utils.py`
(`filter_messages_by_time_gaps`, `detect_conversation_resumption`),
`src/ted.py` (`Ted.__call__`, `Ted.stream_reply`) and the constants of
`src/config.py`.

Modelling conventions:
* Python strings are lists of characters (`Str`).
* Timestamps as stored in records are a three-valued type `TS`: a value that
  `datetime.fromisoformat` parses (carrying its instant as rational hours
  since the epoch, UTC), a non-empty unparsable value, or the empty/falsy
  value.  Wall-clock instants, ages and gaps are rationals measured in hours
  (the code divides `total_seconds()` by 3600); float rounding is ignored
  and float arithmetic is read as exact arithmetic.
* An uncaught Python exception is `Except.error`.
-/

/-- Python strings, modelled as lists of characters. -/
abbrev Str := List Char

/-- A timestamp field as it sits in a record before parsing:
`valid t` is a string `datetime.fromisoformat` accepts, denoting the
instant `t` (rational hours since the epoch, UTC, naive strings read as
UTC); `invalid` is a non-empty string it rejects; `empty` is the empty
string, which is falsy in Python and also rejected by the parser. -/
inductive TS where
  | empty : TS
  | invalid : TS
  | valid : ℚ → TS
deriving DecidableEq

/-- Whether `datetime.fromisoformat(ts)` succeeds. -/
def TS.parseOk : TS → Bool
  | TS.valid _ => true
  | _ => false

/-- The instant a timestamp denotes, with the `except`-fallback to `now_utc`
used by the scoring and segmentation code on parse failure. -/
def TS.timeOr (now : ℚ) : TS → ℚ
  | TS.valid t => t
  | _ => now

/-- Python `str.strip()`: drop leading and trailing whitespace. -/
def pyStrip (s : Str) : Str :=
  ((s.dropWhile Char.isWhitespace).reverse.dropWhile Char.isWhitespace).reverse

/-- `config.MIN_SIMILARITY_THRESHOLD = 0.45`. -/
def MIN_SIMILARITY_THRESHOLD : ℚ := 45 / 100

/-- `config.RECENCY_HALFLIFE_DAYS = 30`. -/
def RECENCY_HALFLIFE_DAYS : ℚ := 30

/-- `config.WINDOW_MESSAGES = 20`. -/
def WINDOW_MESSAGES : Nat := 20

/-- `config.MESSAGE_FRESHNESS_HOURS = 8`. -/
def MESSAGE_FRESHNESS_HOURS : ℚ := 8

/-- `config.MAX_STALE_MESSAGES = 3`. -/
def MAX_STALE_MESSAGES : Nat := 3

/-- `config.TIME_BREAK_THRESHOLD_HOURS = 4`. -/
def TIME_BREAK_THRESHOLD_HOURS : ℚ := 4

/-- `config.MAX_THREAD_WORKERS = 2`: bound of the `ted.py` worker pool. -/
def MAX_THREAD_WORKERS : Nat := 2

/-- One raw semantic-search hit, with the dict keys `MemoryManager.retrieve`
reads: `hit["memory"]` (the text), `hit["score"]` (the externally supplied
similarity), `hit["metadata"]["ts"]` (`none` when the metadata has no `ts`
key) and `hit["created_at"]` (the store-assigned creation timestamp). -/
structure Hit where
  memory : Str
  score : ℚ
  metaTs : Option TS
  createdAt : TS
deriving DecidableEq

/-- One record of the per-user turn log, shape
`{role, content, timestamp}` (memory.py `append_message`). -/
structure Msg where
  role : Str
  content : Str
  timestamp : TS
deriving DecidableEq

namespace Utils

/-- Timestamp parsing of `filter_messages_by_time_gaps` (utils.py 180-203):
an empty `msg.get("timestamp", "")` is falsy and falls back to `now_utc`,
and a parse failure is caught with the same fallback. -/
def parsedTs (now : ℚ) (m : Msg) : ℚ := TS.timeOr now m.timestamp

/-- `age_hours = (now_utc - ts).total_seconds() / 3600`. -/
def ageHours (now : ℚ) (m : Msg) : ℚ := now - parsedTs now m

/-- The conversation-break scan (utils.py 217-229): the indices
`i ∈ range(1, len(messages))` whose gap to the previous message is at least
`TIME_BREAK_THRESHOLD_HOURS`. -/
def breakIndices (now : ℚ) (messages : List Msg) : List Nat :=
  (List.range messages.length).filter fun i =>
    decide (1 ≤ i) &&
    decide (TIME_BREAK_THRESHOLD_HOURS ≤
      (messages.map (parsedTs now)).getD i 0 - (messages.map (parsedTs now)).getD (i - 1) 0)

/-- `filter_messages_by_time_gaps` (utils.py 160-267).  The trailing list
comprehension rebuilds each record from its role/content/timestamp fields,
which on this record type is the identity, so it is omitted.  The window
cap `20` and `MAX_STALE_MESSAGES` truncations use Python's `list[-n:]`,
i.e. `List.drop (length - n)`. -/
def filterMessagesByTimeGaps (now : ℚ) (messages : List Msg) : List Msg :=
  if messages = [] then []
  else if messages.all fun m => decide (ageHours now m ≤ MESSAGE_FRESHNESS_HOURS) then
    messages.drop (messages.length - 20)
  else
    match (breakIndices now messages).getLast? with
    | some start =>
      let seg := messages.drop start
      match seg with
      | [] => seg
      | m0 :: _ =>
        if MESSAGE_FRESHNESS_HOURS < ageHours now m0 then
          seg.drop (seg.length - MAX_STALE_MESSAGES)
        else seg
    | none =>
      match messages.getLast? with
      | some mLast =>
        if MESSAGE_FRESHNESS_HOURS < ageHours now mLast then
          messages.drop (messages.length - MAX_STALE_MESSAGES)
        else messages.drop (messages.length - 20)
      | none => messages.drop (messages.length - 20)

/-- `detect_conversation_resumption` (utils.py 270-312).  `localHour` is
`now_utc.astimezone(USER_TZ).hour`, passed explicitly because the timezone
conversion is an environment lookup.  A missing second message, or a
newest-message timestamp `fromisoformat` rejects, is caught locally and
reported as no resumption. -/
def detectConversationResumption (now : ℚ) (localHour : Nat) (messages : List Msg) :
    Bool × Option String :=
  if messages.length < 2 then (false, none)
  else
    match messages.getLast? with
    | none => (false, none)
    | some lastMsg =>
      match lastMsg.timestamp with
      | TS.valid t =>
        let gapHours := now - t
        if TIME_BREAK_THRESHOLD_HOURS < gapHours then
          if 12 ≤ gapHours then
            if 6 ≤ localHour ∧ localHour ≤ 11 then (true, some "morning after a break")
            else if 20 ≤ gapHours then (true, some "resuming after a long break")
            else (true, some "resuming conversation")
          else (true, some "continuing after a short break")
        else (false, none)
      | _ => (false, none)

end Utils

namespace Mem

/-- `_DUPLICATE_REGEX.sub("", hit["memory"].lower())` (memory.py 25, 119):
lower-case the text, then remove every non-word character (Python `\W` is
the complement of alphanumeric/underscore). -/
def sig (text : Str) : Str :=
  (text.map Char.toLower).filter fun c => c.isAlphanum || c == '_'

/-- `ts_iso = hit.get("metadata", {}).get("ts") or hit["created_at"]`
(memory.py 103, 125): a missing or empty (falsy) metadata timestamp falls
back to `created_at`. -/
def tsIso (h : Hit) : TS :=
  match h.metaTs with
  | none => h.createdAt
  | some TS.empty => h.createdAt
  | some ts => ts

/-- `age_days = (now_utc - ts.astimezone(timezone.utc)).days` with the
`except`-fallback `ts = now_utc` (memory.py 104-110).  `timedelta.days`
floors the day difference, also for negative differences. -/
def ageDays (now : ℚ) (h : Hit) : ℤ :=
  Int.floor ((now - TS.timeOr now (tsIso h)) / 24)

/-- The derived relevance score of `MemoryManager.retrieve.score`
(memory.py 99-112), float arithmetic read as exact real arithmetic:
`0.0` below the similarity threshold, otherwise
`sim * 0.5 ** (age_days / RECENCY_HALFLIFE_DAYS)`. -/
noncomputable def score (now : ℚ) (h : Hit) : ℝ :=
  if h.score < MIN_SIMILARITY_THRESHOLD then 0
  else (h.score : ℝ) * (1 / 2 : ℝ) ^ ((ageDays now h : ℝ) / (RECENCY_HALFLIFE_DAYS : ℝ))

/-- Executable comparison of two derived scores (the 30th powers and the
cross-multiplication by `2 ^ age` eliminate the real exponentials); the
theorem `scoreLe_iff` below proves it equivalent to
`score now a ≤ score now b`, so sorting with it is sorting by the score. -/
def scoreLe (now : ℚ) (a b : Hit) : Bool :=
  if a.score < MIN_SIMILARITY_THRESHOLD then true
  else if b.score < MIN_SIMILARITY_THRESHOLD then false
  else decide (a.score ^ 30 * (2 : ℚ) ^ ageDays now b ≤ b.score ^ 30 * (2 : ℚ) ^ ageDays now a)

/-- Stable insertion: place `x` before the first element `y` with
`keep x y`. -/
def insertRanked (keep : Hit → Hit → Bool) (x : Hit) : List Hit → List Hit
  | [] => [x]
  | y :: l => if keep x y then x :: y :: l else y :: insertRanked keep x l

/-- Stable insertion sort over the keep-before test. -/
def pySorted (keep : Hit → Hit → Bool) : List Hit → List Hit
  | [] => []
  | x :: l => insertRanked keep x (pySorted keep l)

/-- `ranked = sorted(raw_hits, key=score, reverse=True)` (memory.py 114):
a stable descending sort by derived score; `keep a b` holds when
`score a ≥ score b`, so ties keep their input order, as in Python. -/
def rankedOf (now : ℚ) (hits : List Hit) : List Hit :=
  pySorted (fun a b => scoreLe now b a) hits

/-- The selection loop of `MemoryManager.retrieve` (memory.py 115-121):
walk the ranked hits, keep the first hit per non-empty signature, stop once
`k` are picked.  `picked` is the `OrderedDict`, modelled as an
insertion-ordered association list. -/
def dedupSelect (k : Nat) : List Hit → List (Str × Hit) → List (Str × Hit)
  | [], picked => picked
  | h :: rest, picked =>
    if k ≤ picked.length then picked
    else
      let s := sig h.memory
      if s ≠ [] ∧ ∀ p ∈ picked, p.1 ≠ s then dedupSelect k rest (picked ++ [(s, h)])
      else dedupSelect k rest picked

/-- Ranking followed by deduplicated selection: the `picked` mapping of one
`retrieve` call. -/
def retrieveSelect (now : ℚ) (k : Nat) (hits : List Hit) : List (Str × Hit) :=
  dedupSelect k (rankedOf now hits) []

/-- `grouped.setdefault(date_hdr, []).append(item)` (memory.py 132): append
an item to its day group, keeping groups in first-appearance order. -/
def insertGroup (day : ℤ) (item : ℚ × Str) :
    List (ℤ × List (ℚ × Str)) → List (ℤ × List (ℚ × Str))
  | [] => [(day, [item])]
  | (d, items) :: rest =>
    if d = day then (d, items ++ [item]) :: rest
    else (d, items) :: insertGroup day item rest

/-- The date-grouping loop of `retrieve` (memory.py 123-132): it re-parses
each picked hit's timestamp with `datetime.fromisoformat` and NO
try/except, so an unparsable timestamp raises out of `retrieve`
(`Except.error`).  `off` is the display-timezone offset of `USER_TZ` in
hours; a group is keyed by the local calendar day (standing for
`"%Y-%m-%d (%a)"`) and an item carries the local time of day (standing for
`"%H:%M"`) and the stripped text. -/
def groupHits (off : ℚ) (acc : List (ℤ × List (ℚ × Str))) :
    List Hit → Except Unit (List (ℤ × List (ℚ × Str)))
  | [] => Except.ok acc
  | h :: rest =>
    match tsIso h with
    | TS.valid t =>
      let localT := t + off
      let day := Int.floor (localT / 24)
      groupHits off (insertGroup day (localT - 24 * day, pyStrip h.memory) acc) rest
    | _ => Except.error ()

/-- Decimal rendering of an integer day key (stands for the strftime date
header). -/
def renderInt (z : ℤ) : Str :=
  match z with
  | Int.ofNat n => Nat.toDigits 10 n
  | Int.negSucc n => '-' :: Nat.toDigits 10 (n + 1)

/-- Rendering of a rational local time of day (stands for `"%H:%M"`). -/
def renderRat (q : ℚ) : Str :=
  renderInt q.num ++ '/' :: Nat.toDigits 10 q.den

/-- The rendering loop of `retrieve` (memory.py 134-138): one header line
per group, one indented bullet per item. -/
def renderGroups (gs : List (ℤ × List (ℚ × Str))) : List Str :=
  gs.flatMap fun g =>
    renderInt g.1 ::
      g.2.map fun item =>
        [' ', ' ', '•', ' '] ++ renderRat item.1 ++ [' ', '–', ' '] ++ item.2

/-- `"\n".join(lines)`. -/
def joinLines : List Str → Str
  | [] => []
  | [l] => l
  | l :: rest => l ++ '\n' :: joinLines rest

/-- `MemoryManager.retrieve` (memory.py 48-140).  A blank query short-
circuits to `""` without consulting the search collaborator; otherwise
`hits` stands for the collaborator's `raw_hits` response, which is ranked,
deduplicated, grouped by local date and rendered.  An exception escaping
the call is `Except.error`. -/
def retrieve (now off : ℚ) (query : Str) (k : Nat) (hits : List Hit) : Except Unit Str :=
  if pyStrip query = [] then Except.ok []
  else
    match groupHits off [] ((retrieveSelect now k hits).map Prod.snd) with
    | Except.error e => Except.error e
    | Except.ok gs => Except.ok (joinLines (renderGroups gs))

/-- `MemoryManager.fetch_recent` (memory.py 210-278).  `messages` is the
per-user slice of the turn log; a `limit` of `none` falls back to `k`.
The trailing comprehension again rebuilds records field-by-field and is the
identity here.  Python's `messages[start:end]` with
`0 ≤ start ≤ end ≤ len` is `(drop start).take (end - start)`, and the
`max(0, ...)` is natural-number truncated subtraction. -/
def fetchRecent (now : ℚ) (messages : List Msg) (k : Nat) (useTimeFiltering : Bool)
    (offset : Nat) (limit : Option Nat) : List Msg :=
  let actualLimit := limit.getD k
  if messages = [] then []
  else if messages.length ≤ offset then []
  else
    let total := messages.length
    let startIndex := total - offset - actualLimit
    let endIndex := total - offset
    let raw := (messages.drop startIndex).take (endIndex - startIndex)
    if useTimeFiltering && decide (offset = 0) then Utils.filterMessagesByTimeGaps now raw
    else raw

end Mem

namespace Ted

/-- Where a persistence step runs: on the caller's thread, or on the
`MAX_THREAD_WORKERS`-bounded `_EXECUTOR` pool. -/
inductive Mode where
  | foreground : Mode
  | background : Mode
deriving DecidableEq

/-- The three persistence steps of a finished reply: the memory-store add
(`memory.store`) and the two turn-log appends (`append_message`). -/
inductive PersistOp where
  | storeMem : PersistOp
  | appendUserTurn : PersistOp
  | appendAssistantTurn : PersistOp
deriving DecidableEq

/-- One dispatched persistence step. -/
structure Dispatch where
  op : PersistOp
  mode : Mode
deriving DecidableEq

/-- Persistence steps of `Ted.__call__` (ted.py 126-128): `memory.store`
and both `append_message` calls run synchronously on the caller's thread,
in this order. -/
def callDispatches : List Dispatch :=
  [⟨PersistOp.storeMem, Mode.foreground⟩,
   ⟨PersistOp.appendUserTurn, Mode.foreground⟩,
   ⟨PersistOp.appendAssistantTurn, Mode.foreground⟩]

/-- Persistence steps of `Ted.stream_reply` (ted.py 167-177):
`memory.store` is submitted to the `_EXECUTOR` pool, while both
`append_message` calls still run on the caller's thread. -/
def streamReplyDispatches : List Dispatch :=
  [⟨PersistOp.storeMem, Mode.background⟩,
   ⟨PersistOp.appendUserTurn, Mode.foreground⟩,
   ⟨PersistOp.appendAssistantTurn, Mode.foreground⟩]

/-- `MemoryManager.store` (memory.py 158-171): a failure of `memory.add`
is logged and RE-RAISED (`raise` on line 171), so it surfaces to whoever
called `store`. -/
def store (addFails : Bool) : Except String Unit :=
  if addFails then Except.error "store failed" else Except.ok ()

/-- Foreground outcome of `Ted.__call__` once the reply is assembled
(ted.py 126-131): the synchronous `memory.store` call propagates its
exception to the caller, and only a successful store returns the reply. -/
def tedCall (addFails : Bool) (reply : String) : Except String String :=
  match store addFails with
  | Except.error e => Except.error e
  | Except.ok _ => Except.ok reply

/-- Foreground outcome of `Ted.stream_reply` once the reply is assembled
(ted.py 167-179): the store runs on the executor and `_log_when_done`
catches and logs its exception, so the caller always gets the reply. -/
def tedStreamReply (_addFails : Bool) (reply : String) : Except String String :=
  Except.ok reply

end Ted

/-- Python slice `l[a:b]` for `0 ≤ a ≤ b ≤ len(l)`, the form the spec's
pagination contract is phrased in. -/
def pySlice (l : List Msg) (a b : Nat) : List Msg := (l.drop a).take (b - a)

-- Concrete hits and messages used by the witnesses and counterexamples.

def gHit : Hit := ⟨['g', 'o', 'o', 'd'], 1 / 2, none, TS.valid 0⟩

def bHit : Hit := ⟨['w', 'e', 'a', 'k'], 3 / 10, none, TS.valid 0⟩

def badTsHit : Hit := ⟨['b', 'a', 'd'], 1 / 2, none, TS.invalid⟩

def dupHitA : Hit := ⟨['H', 'i', '!'], 1 / 2, none, TS.valid 0⟩

def dupHitB : Hit := ⟨['h', 'i'], 1 / 2, none, TS.valid 0⟩

def punctHit : Hit := ⟨['!', '?'], 1 / 2, none, TS.valid 0⟩

def freshHit : Hit := ⟨['n', 'e', 'w'], 1 / 2, none, TS.valid 0⟩

def staleHit : Hit := ⟨['n', 'e', 'w'], 1 / 2, none, TS.valid (-240)⟩

def msgU : Msg := ⟨['u'], ['h', 'i'], TS.valid 0⟩

def msgA : Msg := ⟨['a'], ['y', 'o'], TS.valid 1⟩

def msgPre6 : Msg := ⟨['u'], ['a'], TS.valid 0⟩

def msgPost6 : Msg := ⟨['a'], ['b'], TS.valid 6⟩

def msgsFix : List Msg :=
  [⟨['u'], ['a'], TS.valid 0⟩, ⟨['a'], ['b'], TS.valid 1⟩, ⟨['u'], ['c'], TS.valid 2⟩]

def msgB8 : Msg := ⟨['u'], ['a'], TS.valid 0⟩

def msgL8 : Msg := ⟨['a'], ['b'], TS.valid 0⟩

/-! ### Claim theorems -/

/-- Claim C10: the output of the time-gap filter is a contiguous suffix of
its input: some index `n` exists with `output = input.drop n`, so output
element `j` carries the role, content and timestamp of input element
`n + j`, relative order is preserved, and no interior message is dropped
while a later one is kept. -/
theorem claimC10 (now : ℚ) (messages : List Msg) :
    ∃ n, Utils.filterMessagesByTimeGaps now messages = messages.drop n := by
  simp only [Utils.filterMessagesByTimeGaps]
  split
  · next hnil => exact ⟨0, by rw [hnil, List.drop_nil]⟩
  · split
    · exact ⟨messages.length - 20, rfl⟩
    · split
      · next start _ =>
        split
        · exact ⟨start, rfl⟩
        · split
          · exact ⟨start + ((messages.drop start).length - MAX_STALE_MESSAGES),
              List.drop_drop _ _ _⟩
          · exact ⟨start, rfl⟩
      · split
        · split
          · exact ⟨messages.length - MAX_STALE_MESSAGES, rfl⟩
          · exact ⟨messages.length - 20, rfl⟩
        · exact ⟨messages.length - 20, rfl⟩

/-- Claim C5: when every turn's age relative to now is at most
`MESSAGE_FRESHNESS_HOURS`, the time-gap segmenter returns the last
`min(N, 20)` turns unchanged and in order (the fully-fresh path applies no
filtering beyond the window cap of 20). -/
theorem claimC5 (now : ℚ) (messages : List Msg)
    (hfresh : ∀ m ∈ messages, Utils.ageHours now m ≤ MESSAGE_FRESHNESS_HOURS) :
    Utils.filterMessagesByTimeGaps now messages = messages.drop (messages.length - 20) ∧
    (Utils.filterMessagesByTimeGaps now messages).length = min messages.length 20 := by
  have hall : (messages.all fun m =>
      decide (Utils.ageHours now m ≤ MESSAGE_FRESHNESS_HOURS)) = true := by
    rw [List.all_eq_true]
    intro m hm
    exact decide_eq_true (hfresh m hm)
  have h1 : Utils.filterMessagesByTimeGaps now messages =
      messages.drop (messages.length - 20) := by
    simp only [Utils.filterMessagesByTimeGaps]
    by_cases hnil : messages = []
    · rw [if_pos hnil, hnil, List.drop_nil]
    · rw [if_neg hnil, if_pos hall]
  refine ⟨h1, ?_⟩
  rw [h1, List.length_drop]
  omega

/-- Witness for C5 at two fresh messages. -/
theorem claimC5_check :
    Utils.filterMessagesByTimeGaps 2 [msgU, msgA] = [msgU, msgA] ∧
    (Utils.filterMessagesByTimeGaps 2 [msgU, msgA]).length = 2 := by
  have h := claimC5 2 [msgU, msgA] (by
    norm_num [List.forall_mem_cons, Utils.ageHours, Utils.parsedTs, TS.timeOr,
      msgU, msgA, MESSAGE_FRESHNESS_HOURS])
  exact ⟨h.1.trans rfl, h.2.trans rfl⟩

/-- Claim C7: in pagination mode (time filtering off, as the API caller
selects it), `fetch_recent` on a log of `T` turns returns the slice
`turns[max(0, T-offset-limit) : T-offset]`, the empty list when
`offset ≥ T`, and applies no time heuristics — the result does not depend
on the current time at all. -/
theorem claimC7 (now otherNow : ℚ) (messages : List Msg) (k offset limit : Nat) :
    (messages.length ≤ offset → Mem.fetchRecent now messages k false offset (some limit) = []) ∧
    (offset < messages.length →
      Mem.fetchRecent now messages k false offset (some limit) =
        pySlice messages (messages.length - offset - limit) (messages.length - offset)) ∧
    Mem.fetchRecent otherNow messages k false offset (some limit) =
      Mem.fetchRecent now messages k false offset (some limit) := by
  refine ⟨?_, ?_, rfl⟩
  · intro hle
    simp only [Mem.fetchRecent]
    by_cases hnil : messages = []
    · rw [if_pos hnil]
    · rw [if_neg hnil, if_pos hle]
  · intro hlt
    have hnil : ¬ messages = [] := by
      intro h
      rw [h] at hlt
      simp at hlt
    simp only [Mem.fetchRecent]
    rw [if_neg hnil, if_neg (not_le.2 hlt)]
    rfl

/-- Witness for C7: an out-of-range offset yields the empty list, and an
in-range offset/limit yields the documented slice. -/
theorem claimC7_check :
    Mem.fetchRecent 0 msgsFix 20 false 5 (some 2) = [] ∧
    Mem.fetchRecent 0 msgsFix 20 false 1 (some 1) = pySlice msgsFix 1 2 := by
  constructor
  · exact (claimC7 0 0 msgsFix 20 5 2).1 (by decide)
  · exact ((claimC7 0 0 msgsFix 20 1 1).2.1 (by decide)).trans (by decide)

/-- Claim C8: the resumption detector reports no resumption for gaps at
most `TIME_BREAK_THRESHOLD_HOURS`, "continuing after a short break" for
gaps strictly between the threshold and 12 hours, "morning after a break"
for gaps of at least 12 hours when the local hour lies in [6, 12),
"resuming after a long break" for gaps of at least 20 hours outside the
morning case, "resuming conversation" for gaps in [12, 20) outside the
morning case, and reports no resumption (without raising) for fewer than
two turns or an unparsable newest timestamp. -/
theorem claimC8 (now : ℚ) (localHour : Nat) :
    (∀ messages : List Msg, messages.length < 2 →
      Utils.detectConversationResumption now localHour messages = (false, none)) ∧
    (∀ messages : List Msg, ∀ lastMsg, messages.getLast? = some lastMsg →
      (∀ t, lastMsg.timestamp ≠ TS.valid t) →
      Utils.detectConversationResumption now localHour messages = (false, none)) ∧
    (∀ messages : List Msg, ∀ lastMsg, ∀ t : ℚ, 2 ≤ messages.length →
      messages.getLast? = some lastMsg → lastMsg.timestamp = TS.valid t →
      ((now - t ≤ TIME_BREAK_THRESHOLD_HOURS →
         Utils.detectConversationResumption now localHour messages = (false, none)) ∧
       (TIME_BREAK_THRESHOLD_HOURS < now - t → now - t < 12 →
         Utils.detectConversationResumption now localHour messages =
           (true, some "continuing after a short break")) ∧
       (12 ≤ now - t → 6 ≤ localHour → localHour ≤ 11 →
         Utils.detectConversationResumption now localHour messages =
           (true, some "morning after a break")) ∧
       (20 ≤ now - t → ¬(6 ≤ localHour ∧ localHour ≤ 11) →
         Utils.detectConversationResumption now localHour messages =
           (true, some "resuming after a long break")) ∧
       (12 ≤ now - t → now - t < 20 → ¬(6 ≤ localHour ∧ localHour ≤ 11) →
         Utils.detectConversationResumption now localHour messages =
           (true, some "resuming conversation")))) := by
  refine ⟨?_, ?_, ?_⟩
  · intro messages hlen
    simp only [Utils.detectConversationResumption]
    rw [if_pos hlen]
  · intro messages lastMsg hlast hbad
    by_cases hlen : messages.length < 2
    · simp only [Utils.detectConversationResumption]
      rw [if_pos hlen]
    · cases hts : lastMsg.timestamp with
      | empty =>
        simp only [Utils.detectConversationResumption, hlast, hts]
        rw [if_neg hlen]
      | invalid =>
        simp only [Utils.detectConversationResumption, hlast, hts]
        rw [if_neg hlen]
      | valid t => exact absurd hts (hbad t)
  · intro messages lastMsg t hlen hlast hts
    have hd : Utils.detectConversationResumption now localHour messages =
        (if TIME_BREAK_THRESHOLD_HOURS < now - t then
          if 12 ≤ now - t then
            if 6 ≤ localHour ∧ localHour ≤ 11 then (true, some "morning after a break")
            else if 20 ≤ now - t then (true, some "resuming after a long break")
            else (true, some "resuming conversation")
          else (true, some "continuing after a short break")
        else (false, none)) := by
      simp only [Utils.detectConversationResumption, hlast, hts]
      rw [if_neg (not_lt.2 hlen)]
    refine ⟨?_, ?_, ?_, ?_, ?_⟩
    · intro hgap
      rw [hd, if_neg (not_lt.2 hgap)]
    · intro hgap h12
      rw [hd, if_pos hgap, if_neg (not_le.2 h12)]
    · intro h12 h6 h11
      have h4 : TIME_BREAK_THRESHOLD_HOURS < now - t := by
        rw [TIME_BREAK_THRESHOLD_HOURS]
        linarith
      rw [hd, if_pos h4, if_pos h12, if_pos ⟨h6, h11⟩]
    · intro h20 hnm
      have h4 : TIME_BREAK_THRESHOLD_HOURS < now - t := by
        rw [TIME_BREAK_THRESHOLD_HOURS]
        linarith
      have h12 : (12 : ℚ) ≤ now - t := by linarith
      rw [hd, if_pos h4, if_pos h12, if_neg hnm, if_pos h20]
    · intro h12 h20 hnm
      have h4 : TIME_BREAK_THRESHOLD_HOURS < now - t := by
        rw [TIME_BREAK_THRESHOLD_HOURS]
        linarith
      rw [hd, if_pos h4, if_pos h12, if_neg hnm, if_neg (not_le.2 h20)]

/-- Witness for C8, mirroring the spec's examples: a 25-hour gap at local
hour 8 is "morning after a break", a 5-hour gap is "continuing after a
short break", and a 1-hour gap is no resumption. -/
theorem claimC8_check :
    Utils.detectConversationResumption 25 8 [msgB8, msgL8] =
      (true, some "morning after a break") ∧
    Utils.detectConversationResumption 5 8 [msgB8, msgL8] =
      (true, some "continuing after a short break") ∧
    Utils.detectConversationResumption 1 8 [msgB8, msgL8] = (false, none) := by
  refine ⟨?_, ?_, ?_⟩
  · exact ((claimC8 25 8).2.2 [msgB8, msgL8] msgL8 0 (by decide) rfl rfl).2.2.1
      (by norm_num) (by norm_num) (by norm_num)
  · exact ((claimC8 5 8).2.2 [msgB8, msgL8] msgL8 0 (by decide) rfl rfl).2.1
      (by rw [TIME_BREAK_THRESHOLD_HOURS]; norm_num) (by norm_num)
  · exact ((claimC8 1 8).2.2 [msgB8, msgL8] msgL8 0 (by decide) rfl rfl).1
      (by rw [TIME_BREAK_THRESHOLD_HOURS]; norm_num)

/-- Counterexample to C6 as stated: two turns 6 hours apart (one
consecutive-turn gap of at least `TIME_BREAK_THRESHOLD_HOURS`, recorded at
index 1), but both fresh, so the fully-fresh path returns BOTH turns
rather than only the turns from the gap onward. -/
theorem claimC6_cex :
    Utils.breakIndices 7 [msgPre6, msgPost6] = [1] ∧
    Utils.filterMessagesByTimeGaps 7 [msgPre6, msgPost6] = [msgPre6, msgPost6] ∧
    [msgPre6, msgPost6].drop 1 ≠ [msgPre6, msgPost6] := by
  refine ⟨?_, ?_, by simp [msgPre6, msgPost6]⟩
  · norm_num [Utils.breakIndices, Utils.parsedTs, TS.timeOr, msgPre6, msgPost6,
      TIME_BREAK_THRESHOLD_HOURS, List.range_succ, List.filter]
  · norm_num [Utils.filterMessagesByTimeGaps, Utils.breakIndices, Utils.ageHours,
      Utils.parsedTs, TS.timeOr, msgPre6, msgPost6, MESSAGE_FRESHNESS_HOURS,
      TIME_BREAK_THRESHOLD_HOURS, List.range_succ, List.filter, List.all_cons,
      List.cons_ne_nil]

/-- Claim C6 (amended): given a turn list whose consecutive-turn gap scan
records exactly one break, at index `i`, where additionally not every turn
is fresh (otherwise the fully-fresh path ignores the break) and the turn
right after the gap is itself fresh (otherwise the stale truncation
applies), the segmenter returns exactly the turns from that gap onward. -/
theorem claimC6 (now : ℚ) (messages : List Msg) (i : Nat)
    (hb : Utils.breakIndices now messages = [i])
    (hstale : ¬ ∀ m ∈ messages, Utils.ageHours now m ≤ MESSAGE_FRESHNESS_HOURS)
    (hfresh : ((messages.drop i).head?.elim true fun m0 =>
      decide (Utils.ageHours now m0 ≤ MESSAGE_FRESHNESS_HOURS)) = true) :
    Utils.filterMessagesByTimeGaps now messages = messages.drop i := by
  have hnil : ¬ messages = [] := by
    intro h
    rw [h] at hb
    simp [Utils.breakIndices] at hb
  have hallb : ¬ (messages.all fun m =>
      decide (Utils.ageHours now m ≤ MESSAGE_FRESHNESS_HOURS)) = true := by
    intro hc
    exact hstale fun m hm => of_decide_eq_true (List.all_eq_true.1 hc m hm)
  have hgl : (Utils.breakIndices now messages).getLast? = some i := by
    rw [hb]
    rfl
  simp only [Utils.filterMessagesByTimeGaps]
  rw [if_neg hnil, if_neg hallb]
  simp only [hgl]
  cases hseg : messages.drop i with
  | nil => rfl
  | cons m0 rest =>
    rw [hseg] at hfresh
    simp only [List.head?_cons, Option.elim] at hfresh
    show (if MESSAGE_FRESHNESS_HOURS < Utils.ageHours now m0 then
        (m0 :: rest).drop ((m0 :: rest).length - MAX_STALE_MESSAGES)
      else m0 :: rest) = m0 :: rest
    rw [if_neg (not_lt.2 (of_decide_eq_true hfresh))]

/-- Witness for C6 (amended): a stale turn, a 6-hour gap, then a fresh
turn; the segmenter keeps exactly the post-gap turn. -/
theorem claimC6_check :
    Utils.filterMessagesByTimeGaps 10 [msgPre6, msgPost6] = [msgPost6] := by
  have h := claimC6 10 [msgPre6, msgPost6] 1
    (by
      norm_num [Utils.breakIndices, Utils.parsedTs, TS.timeOr, msgPre6, msgPost6,
        TIME_BREAK_THRESHOLD_HOURS, List.range_succ, List.filter])
    (by
      norm_num [List.forall_mem_cons, Utils.ageHours, Utils.parsedTs, TS.timeOr,
        msgPre6, msgPost6, MESSAGE_FRESHNESS_HOURS])
    (by
      norm_num [List.drop_succ_cons, List.drop_zero, List.head?_cons, Option.elim,
        Utils.ageHours, Utils.parsedTs, TS.timeOr, msgPost6, MESSAGE_FRESHNESS_HOURS])
  exact h.trans rfl

/-- Counterexample to C2 as stated: in the non-streamed path the
memory-store write is NOT submitted to the background pool (its dispatch
runs in the foreground) and a store failure propagates to the foreground
caller instead of being caught and logged. -/
theorem claimC2_cex :
    Ted.tedCall true "r" = Except.error "store failed" ∧
    ¬ ∀ d ∈ Ted.callDispatches, d.mode = Ted.Mode.background := by
  constructor
  · rfl
  · intro h
    have hc := h ⟨Ted.PersistOp.storeMem, Ted.Mode.foreground⟩ (by decide)
    exact Ted.Mode.noConfusion hc

/-- Claim C2 (amended): only in the streamed path is the memory-store add
submitted to the bounded background pool, and there its exception is
caught and logged by the done-callback so the foreground caller always
receives the reply; the two turn-log appends run in the foreground in both
paths, and in the non-streamed path the store also runs in the foreground,
where its exception propagates to the caller. -/
theorem claimC2 :
    (∀ d ∈ Ted.streamReplyDispatches, d.op = Ted.PersistOp.storeMem →
      d.mode = Ted.Mode.background) ∧
    (∀ fails reply, Ted.tedStreamReply fails reply = Except.ok reply) ∧
    (∀ d ∈ Ted.callDispatches, d.mode = Ted.Mode.foreground) ∧
    (∀ d ∈ Ted.streamReplyDispatches, d.op ≠ Ted.PersistOp.storeMem →
      d.mode = Ted.Mode.foreground) ∧
    (∀ reply, Ted.tedCall true reply = Except.error "store failed") := by
  exact ⟨by decide, fun _ _ => rfl, by decide, by decide, fun _ => rfl⟩

/-- Witness for C2 (amended) at a concrete failing store. -/
theorem claimC2_check :
    Ted.tedStreamReply true "hello" = Except.ok "hello" ∧
    Ted.tedCall true "hello" = Except.error "store failed" :=
  ⟨claimC2.2.1 true "hello", claimC2.2.2.2.2 "hello"⟩

/-! ### Deduplication lemmas (memory.py selection loop) -/

namespace Mem

theorem dedupSelect_of_full (k : Nat) (l : List Hit) (picked : List (Str × Hit))
    (h : k ≤ picked.length) : dedupSelect k l picked = picked := by
  cases l with
  | nil => rfl
  | cons a rest =>
    simp only [dedupSelect]
    rw [if_pos h]

theorem dedupSelect_append (k : Nat) (l₁ l₂ : List Hit) :
    ∀ picked, dedupSelect k (l₁ ++ l₂) picked = dedupSelect k l₂ (dedupSelect k l₁ picked) := by
  induction l₁ with
  | nil => intro picked; rfl
  | cons a rest ih =>
    intro picked
    simp only [List.cons_append, dedupSelect]
    by_cases hfull : k ≤ picked.length
    · rw [if_pos hfull, if_pos hfull, dedupSelect_of_full k l₂ picked hfull]
    · rw [if_neg hfull, if_neg hfull]
      by_cases hcond : sig a.memory ≠ [] ∧ ∀ p ∈ picked, p.1 ≠ sig a.memory
      · rw [if_pos hcond, if_pos hcond]
        exact ih _
      · rw [if_neg hcond, if_neg hcond]
        exact ih _

theorem dedupSelect_length (k : Nat) (l : List Hit) :
    ∀ picked : List (Str × Hit), picked.length ≤ k → (dedupSelect k l picked).length ≤ k := by
  induction l with
  | nil => exact fun _ h => h
  | cons a rest ih =>
    intro picked h
    simp only [dedupSelect]
    by_cases hfull : k ≤ picked.length
    · rw [if_pos hfull]
      exact h
    · rw [if_neg hfull]
      by_cases hcond : sig a.memory ≠ [] ∧ ∀ p ∈ picked, p.1 ≠ sig a.memory
      · rw [if_pos hcond]
        refine ih _ ?_
        rw [List.length_append, List.length_singleton]
        omega
      · rw [if_neg hcond]
        exact ih _ h

theorem dedupSelect_nodup (k : Nat) (l : List Hit) :
    ∀ picked : List (Str × Hit), (picked.map Prod.fst).Nodup →
      ((dedupSelect k l picked).map Prod.fst).Nodup := by
  induction l with
  | nil => exact fun _ h => h
  | cons a rest ih =>
    intro picked h
    simp only [dedupSelect]
    by_cases hfull : k ≤ picked.length
    · rw [if_pos hfull]
      exact h
    · rw [if_neg hfull]
      by_cases hcond : sig a.memory ≠ [] ∧ ∀ p ∈ picked, p.1 ≠ sig a.memory
      · rw [if_pos hcond]
        refine ih _ ?_
        rw [List.map_append, List.map_cons, List.map_nil]
        refine h.append (List.nodup_singleton _) ?_
        intro x hx hx'
        rcases List.mem_map.1 hx with ⟨p, hp, rfl⟩
        rw [List.mem_singleton] at hx'
        exact hcond.2 p hp hx'
      · rw [if_neg hcond]
        exact ih _ h

theorem dedupSelect_mem_spec (k : Nat) (l : List Hit) :
    ∀ picked s h, (s, h) ∈ dedupSelect k l picked →
      (s, h) ∈ picked ∨
      (s ≠ [] ∧ sig h.memory = s ∧ l.find? (fun x => sig x.memory == s) = some h ∧
        ∀ p ∈ picked, p.1 ≠ s) := by
  induction l with
  | nil => exact fun _ _ _ hmem => Or.inl hmem
  | cons a rest ih =>
    intro picked s h hmem
    simp only [dedupSelect] at hmem
    by_cases hfull : k ≤ picked.length
    · rw [if_pos hfull] at hmem
      exact Or.inl hmem
    · rw [if_neg hfull] at hmem
      by_cases hcond : sig a.memory ≠ [] ∧ ∀ p ∈ picked, p.1 ≠ sig a.memory
      · rw [if_pos hcond] at hmem
        rcases ih _ s h hmem with hacc | ⟨hs, hsig, hfind, hnot⟩
        · rcases List.mem_append.1 hacc with hacc' | hsingle
          · exact Or.inl hacc'
          · rw [List.mem_singleton, Prod.mk.injEq] at hsingle
            obtain ⟨hs1, hs2⟩ := hsingle
            subst hs1
            subst hs2
            refine Or.inr ⟨hcond.1, rfl, ?_, hcond.2⟩
            exact List.find?_cons_of_pos _ (by simp)
        · have hne : sig a.memory ≠ s := hnot (sig a.memory, a) (by simp)
          refine Or.inr ⟨hs, hsig, ?_, fun p hp => hnot p (List.mem_append_left _ hp)⟩
          rw [List.find?_cons_of_neg _ (by simpa using hne)]
          exact hfind
      · rw [if_neg hcond] at hmem
        rcases ih _ s h hmem with hacc | ⟨hs, hsig, hfind, hnot⟩
        · exact Or.inl hacc
        · refine Or.inr ⟨hs, hsig, ?_, hnot⟩
          rw [List.find?_cons_of_neg _ ?_]
          · exact hfind
          · intro hbeq
            have heq : sig a.memory = s := by simpa using hbeq
            rcases not_and_or.1 hcond with hc1 | hc2
            · exact hs (heq.symm.trans (not_not.1 hc1))
            · push_neg at hc2
              obtain ⟨p, hp, hps⟩ := hc2
              exact hnot p hp (hps.trans heq)

theorem dedupSelect_filter_sig (k : Nat) (l : List Hit) :
    ∀ picked, dedupSelect k (l.filter fun x => decide (sig x.memory ≠ [])) picked =
      dedupSelect k l picked := by
  induction l with
  | nil => exact fun _ => rfl
  | cons a rest ih =>
    intro picked
    by_cases hempty : sig a.memory = []
    · rw [List.filter_cons_of_neg (by simp [hempty]), ih]
      simp only [dedupSelect]
      by_cases hfull : k ≤ picked.length
      · rw [if_pos hfull, dedupSelect_of_full k rest picked hfull]
      · rw [if_neg hfull, if_neg (fun hc => hc.1 hempty)]
    · rw [show List.filter (fun x => decide (sig x.memory ≠ [])) (a :: rest) =
          a :: List.filter (fun x => decide (sig x.memory ≠ [])) rest from by
        simp [hempty]]
      simp only [dedupSelect]
      by_cases hfull : k ≤ picked.length
      · rw [if_pos hfull, if_pos hfull]
      · rw [if_neg hfull, if_neg hfull]
        by_cases hcond : sig a.memory ≠ [] ∧ ∀ p ∈ picked, p.1 ≠ sig a.memory
        · rw [if_pos hcond, if_pos hcond, ih]
        · rw [if_neg hcond, if_neg hcond, ih]

end Mem

/-- Claim C4: for every hit list and every `k`, the deduplicated selection
of `retrieve` has at most `k` entries; no two selected entries share a
canonical signature; each selected entry's hit is the FIRST hit in score
order bearing its signature; and hits with an empty signature are skipped
without counting toward the quota (removing them from the ranked list does
not change the selection). -/
theorem claimC4 (now : ℚ) (k : Nat) (hits : List Hit) :
    (Mem.retrieveSelect now k hits).length ≤ k ∧
    ((Mem.retrieveSelect now k hits).map Prod.fst).Nodup ∧
    (∀ s h, (s, h) ∈ Mem.retrieveSelect now k hits →
      s ≠ [] ∧ Mem.sig h.memory = s ∧
      (Mem.rankedOf now hits).find? (fun x => Mem.sig x.memory == s) = some h) ∧
    Mem.dedupSelect k
        ((Mem.rankedOf now hits).filter fun x => decide (Mem.sig x.memory ≠ [])) [] =
      Mem.retrieveSelect now k hits := by
  refine ⟨Mem.dedupSelect_length k _ [] (by simp), Mem.dedupSelect_nodup k _ [] (by simp),
    ?_, Mem.dedupSelect_filter_sig k _ []⟩
  intro s h hmem
  rcases Mem.dedupSelect_mem_spec k _ [] s h hmem with hacc | ⟨hs, hsig, hfind, _⟩
  · simp at hacc
  · exact ⟨hs, hsig, hfind⟩

/-- Witness for C4: three equal-similarity hits whose texts are "Hi!",
"hi" and "!?"; the selection keeps only the first "hi"-signature hit, and
the empty-signature hit does not block the quota. -/
theorem claimC4_check :
    (['h', 'i'], dupHitA) ∈ Mem.retrieveSelect 0 2 [dupHitA, dupHitB, punctHit] ∧
    ['h', 'i'] ≠ [] ∧ Mem.sig dupHitA.memory = ['h', 'i'] ∧
    (Mem.rankedOf 0 [dupHitA, dupHitB, punctHit]).find?
      (fun x => Mem.sig x.memory == ['h', 'i']) = some dupHitA := by
  have hrank : Mem.rankedOf 0 [dupHitA, dupHitB, punctHit] = [dupHitA, dupHitB, punctHit] := by
    norm_num [Mem.rankedOf, Mem.pySorted, Mem.insertRanked, Mem.scoreLe, Mem.ageDays,
      Mem.tsIso, TS.timeOr, dupHitA, dupHitB, punctHit, MIN_SIMILARITY_THRESHOLD]
  have hsel : Mem.retrieveSelect 0 2 [dupHitA, dupHitB, punctHit] = [(['h', 'i'], dupHitA)] := by
    rw [Mem.retrieveSelect, hrank]
    norm_num [Mem.dedupSelect, (show Mem.sig dupHitA.memory = ['h', 'i'] from by decide),
      (show Mem.sig dupHitB.memory = ['h', 'i'] from by decide),
      (show Mem.sig punctHit.memory = [] from by decide)]
    intro h
    exact absurd h (by decide)
  have hmem : (['h', 'i'], dupHitA) ∈ Mem.retrieveSelect 0 2 [dupHitA, dupHitB, punctHit] := by
    rw [hsel]
    exact List.mem_singleton_self _
  exact ⟨hmem, (claimC4 0 2 [dupHitA, dupHitB, punctHit]).2.2.1 _ _ hmem⟩

/-! ### Score lemmas (memory.py relevance scorer) -/

namespace Mem

theorem score_of_lt (now : ℚ) (h : Hit) (hlt : h.score < MIN_SIMILARITY_THRESHOLD) :
    score now h = 0 := by
  unfold score
  rw [if_pos hlt]

theorem score_of_ge (now : ℚ) (h : Hit) (hge : ¬ h.score < MIN_SIMILARITY_THRESHOLD) :
    score now h = (h.score : ℝ) *
      (1 / 2 : ℝ) ^ ((ageDays now h : ℝ) / (RECENCY_HALFLIFE_DAYS : ℝ)) := by
  unfold score
  rw [if_neg hge]

theorem score_nonneg (now : ℚ) (h : Hit) : 0 ≤ score now h := by
  by_cases hb : h.score < MIN_SIMILARITY_THRESHOLD
  · rw [score_of_lt now h hb]
  · rw [score_of_ge now h hb]
    have hs : (0 : ℝ) ≤ (h.score : ℝ) := by
      have h0 : (0 : ℚ) ≤ h.score :=
        le_trans (by norm_num [MIN_SIMILARITY_THRESHOLD]) (not_lt.1 hb)
      exact_mod_cast h0
    exact mul_nonneg hs (le_of_lt (Real.rpow_pos_of_pos (by norm_num) _))

theorem score_pos (now : ℚ) (h : Hit) (hge : ¬ h.score < MIN_SIMILARITY_THRESHOLD) :
    0 < score now h := by
  rw [score_of_ge now h hge]
  have hs : (0 : ℝ) < (h.score : ℝ) := by
    have h0 : (0 : ℚ) < h.score :=
      lt_of_lt_of_le (by norm_num [MIN_SIMILARITY_THRESHOLD]) (not_lt.1 hge)
    exact_mod_cast h0
  exact mul_pos hs (Real.rpow_pos_of_pos (by norm_num) _)

/-- The cross-multiplied 30th-power comparison used by `scoreLe` agrees
with the comparison of the real-valued score formulas. -/
theorem scoreCross_iff (sa sb : ℚ) (ta tb : ℤ) (hsa : 0 < sa) (hsb : 0 < sb) :
    (sa ^ 30 * (2 : ℚ) ^ tb ≤ sb ^ 30 * (2 : ℚ) ^ ta) ↔
      ((sa : ℝ) * (1 / 2 : ℝ) ^ ((ta : ℝ) / (30 : ℝ)) ≤
        (sb : ℝ) * (1 / 2 : ℝ) ^ ((tb : ℝ) / (30 : ℝ))) := by
  have two_pos : (0 : ℝ) < 2 := by norm_num
  have hX : (0 : ℝ) < (sa : ℝ) * (2 : ℝ) ^ ((tb : ℝ) / (30 : ℝ)) :=
    mul_pos (by exact_mod_cast hsa) (Real.rpow_pos_of_pos two_pos _)
  have hY : (0 : ℝ) < (sb : ℝ) * (2 : ℝ) ^ ((ta : ℝ) / (30 : ℝ)) :=
    mul_pos (by exact_mod_cast hsb) (Real.rpow_pos_of_pos two_pos _)
  calc sa ^ 30 * (2 : ℚ) ^ tb ≤ sb ^ 30 * (2 : ℚ) ^ ta
      ↔ (((sa ^ 30 * (2 : ℚ) ^ tb : ℚ) : ℝ) ≤ ((sb ^ 30 * (2 : ℚ) ^ ta : ℚ) : ℝ)) :=
        Rat.cast_le.symm
    _ ↔ ((sa : ℝ) ^ 30 * (2 : ℝ) ^ tb ≤ (sb : ℝ) ^ 30 * (2 : ℝ) ^ ta) := by
        push_cast
        exact Iff.rfl
    _ ↔ (((sa : ℝ) * (2 : ℝ) ^ ((tb : ℝ) / (30 : ℝ))) ^ (30 : ℕ) ≤
          ((sb : ℝ) * (2 : ℝ) ^ ((ta : ℝ) / (30 : ℝ))) ^ (30 : ℕ)) := by
        rw [mul_pow, mul_pow,
          ← Real.rpow_natCast ((2 : ℝ) ^ ((tb : ℝ) / (30 : ℝ))) 30,
          ← Real.rpow_natCast ((2 : ℝ) ^ ((ta : ℝ) / (30 : ℝ))) 30,
          ← Real.rpow_mul two_pos.le, ← Real.rpow_mul two_pos.le,
          (show (tb : ℝ) / (30 : ℝ) * ((30 : ℕ) : ℝ) = (tb : ℝ) from by
            push_cast
            exact div_mul_cancel₀ _ (by norm_num)),
          (show (ta : ℝ) / (30 : ℝ) * ((30 : ℕ) : ℝ) = (ta : ℝ) from by
            push_cast
            exact div_mul_cancel₀ _ (by norm_num)),
          Real.rpow_intCast, Real.rpow_intCast]
    _ ↔ ((sa : ℝ) * (2 : ℝ) ^ ((tb : ℝ) / (30 : ℝ)) ≤
          (sb : ℝ) * (2 : ℝ) ^ ((ta : ℝ) / (30 : ℝ))) :=
        pow_le_pow_iff_left₀ hX.le hY.le (by norm_num)
    _ ↔ ((sa : ℝ) / (2 : ℝ) ^ ((ta : ℝ) / (30 : ℝ)) ≤
          (sb : ℝ) / (2 : ℝ) ^ ((tb : ℝ) / (30 : ℝ))) := by
        rw [div_le_div_iff₀ (Real.rpow_pos_of_pos two_pos _) (Real.rpow_pos_of_pos two_pos _)]
    _ ↔ ((sa : ℝ) * (1 / 2 : ℝ) ^ ((ta : ℝ) / (30 : ℝ)) ≤
          (sb : ℝ) * (1 / 2 : ℝ) ^ ((tb : ℝ) / (30 : ℝ))) := by
        rw [(show (1 / 2 : ℝ) = (2 : ℝ)⁻¹ from by norm_num),
          Real.inv_rpow two_pos.le, Real.inv_rpow two_pos.le,
          ← div_eq_mul_inv, ← div_eq_mul_inv]

/-- The executable comparator `scoreLe` orders hits exactly as the
real-valued derived score does, so sorting with it is sorting by score. -/
theorem scoreLe_iff (now : ℚ) (a b : Hit) :
    scoreLe now a b = true ↔ score now a ≤ score now b := by
  unfold scoreLe
  by_cases ha : a.score < MIN_SIMILARITY_THRESHOLD
  · rw [if_pos ha]
    constructor
    · intro _
      rw [score_of_lt now a ha]
      exact score_nonneg now b
    · intro _
      rfl
  · rw [if_neg ha]
    by_cases hb : b.score < MIN_SIMILARITY_THRESHOLD
    · rw [if_pos hb]
      constructor
      · intro hfalse
        exact absurd hfalse (by simp)
      · intro hle
        exfalso
        rw [score_of_lt now b hb] at hle
        exact absurd (lt_of_lt_of_le (score_pos now a ha) hle) (lt_irrefl 0)
    · rw [if_neg hb, decide_eq_true_eq, score_of_ge now a ha, score_of_ge now b hb]
      have h30 : ((RECENCY_HALFLIFE_DAYS : ℚ) : ℝ) = (30 : ℝ) := by
        norm_num [RECENCY_HALFLIFE_DAYS]
      rw [h30]
      exact scoreCross_iff a.score b.score (ageDays now a) (ageDays now b)
        (lt_of_lt_of_le (by norm_num [MIN_SIMILARITY_THRESHOLD]) (not_lt.1 ha))
        (lt_of_lt_of_le (by norm_num [MIN_SIMILARITY_THRESHOLD]) (not_lt.1 hb))

end Mem

/-- Claim C9: of two hits with equal similarity, the one with smaller
whole-day age receives a derived score at least as large, under the rule
`score = sim * 0.5 ** (age_days / HALFLIFE)` above the threshold and
`score = 0` below it. -/
theorem claimC9 (now : ℚ) (a b : Hit) (hsim : a.score = b.score)
    (hage : Mem.ageDays now a ≤ Mem.ageDays now b) :
    Mem.score now b ≤ Mem.score now a := by
  by_cases hlt : b.score < MIN_SIMILARITY_THRESHOLD
  · rw [Mem.score_of_lt now b hlt, Mem.score_of_lt now a (hsim ▸ hlt)]
  · rw [Mem.score_of_ge now b hlt, Mem.score_of_ge now a fun hc => hlt (hsim ▸ hc)]
    rw [hsim]
    have hs : (0 : ℝ) ≤ (b.score : ℝ) := by
      have h0 : (0 : ℚ) ≤ b.score :=
        le_trans (by norm_num [MIN_SIMILARITY_THRESHOLD]) (not_lt.1 hlt)
      exact_mod_cast h0
    refine mul_le_mul_of_nonneg_left ?_ hs
    have h30 : (0 : ℝ) < ((RECENCY_HALFLIFE_DAYS : ℚ) : ℝ) := by
      norm_num [RECENCY_HALFLIFE_DAYS]
    have hcast : ((Mem.ageDays now a : ℤ) : ℝ) ≤ ((Mem.ageDays now b : ℤ) : ℝ) := by
      exact_mod_cast hage
    exact Real.rpow_le_rpow_of_exponent_ge (by norm_num) (by norm_num)
      ((div_le_div_iff_of_pos_right h30).2 hcast)

/-- Witness for C9: two hits of similarity 1/2, one fresh (age 0 days) and
one 10 days old: the fresh hit's score is at least the stale one's. -/
theorem claimC9_check :
    freshHit.score = staleHit.score ∧
    Mem.ageDays 0 freshHit ≤ Mem.ageDays 0 staleHit ∧
    Mem.score 0 staleHit ≤ Mem.score 0 freshHit := by
  have hage : Mem.ageDays 0 freshHit ≤ Mem.ageDays 0 staleHit := by
    norm_num [Mem.ageDays, Mem.tsIso, TS.timeOr, freshHit, staleHit]
  exact ⟨rfl, hage, claimC9 0 freshHit staleHit rfl hage⟩

/-! ### Ranking-order lemmas (memory.py sorted-by-score ranking) -/

namespace Mem

theorem scoreLe_preserves_above (now : ℚ) {x y : Hit} (hle : scoreLe now y x = true)
    (hy : ¬ y.score < MIN_SIMILARITY_THRESHOLD) : ¬ x.score < MIN_SIMILARITY_THRESHOLD := by
  intro hx
  unfold scoreLe at hle
  rw [if_neg hy, if_pos hx] at hle
  exact Bool.false_ne_true hle

theorem scoreLe_false_above (now : ℚ) {x y : Hit} (hle : scoreLe now y x = false) :
    ¬ y.score < MIN_SIMILARITY_THRESHOLD := by
  intro hy
  unfold scoreLe at hle
  rw [if_pos hy] at hle
  exact absurd hle (by simp)

theorem mem_insertRanked (keep : Hit → Hit → Bool) (x a : Hit) :
    ∀ l, a ∈ insertRanked keep x l ↔ a = x ∨ a ∈ l := by
  intro l
  induction l with
  | nil => simp [insertRanked]
  | cons y rest ih =>
    simp only [insertRanked]
    by_cases hk : keep x y = true
    · rw [if_pos hk]
      simp [List.mem_cons]
    · rw [if_neg hk]
      rw [List.mem_cons, ih, List.mem_cons]
      tauto

theorem mem_pySorted (keep : Hit → Hit → Bool) (a : Hit) :
    ∀ l, a ∈ pySorted keep l ↔ a ∈ l := by
  intro l
  induction l with
  | nil => exact Iff.rfl
  | cons x rest ih =>
    simp only [pySorted]
    rw [mem_insertRanked]
    simp only [List.mem_cons, ih]

theorem pairwise_insertRanked (now : ℚ) (x : Hit) :
    ∀ l, l.Pairwise (fun u v => ¬ v.score < MIN_SIMILARITY_THRESHOLD →
        ¬ u.score < MIN_SIMILARITY_THRESHOLD) →
      (insertRanked (fun a b => scoreLe now b a) x l).Pairwise
        (fun u v => ¬ v.score < MIN_SIMILARITY_THRESHOLD →
          ¬ u.score < MIN_SIMILARITY_THRESHOLD) := by
  intro l
  induction l with
  | nil =>
    intro _
    simp [insertRanked]
  | cons y rest ih =>
    intro hp
    rcases List.pairwise_cons.1 hp with ⟨hy_rest, hp_rest⟩
    simp only [insertRanked]
    by_cases hk : scoreLe now y x = true
    · rw [if_pos hk]
      refine List.pairwise_cons.2 ⟨?_, hp⟩
      intro z hz
      rcases List.mem_cons.1 hz with rfl | hz'
      · exact fun hza => scoreLe_preserves_above now hk hza
      · exact fun hza => scoreLe_preserves_above now hk (hy_rest z hz' hza)
    · rw [if_neg hk]
      have hkf : scoreLe now y x = false := by simpa using hk
      refine List.pairwise_cons.2 ⟨?_, ih hp_rest⟩
      intro z hz
      rcases (mem_insertRanked _ x z rest).1 hz with rfl | hz'
      · exact fun _ => scoreLe_false_above now hkf
      · exact hy_rest z hz'

theorem pairwise_rankedOf (now : ℚ) (hits : List Hit) :
    (rankedOf now hits).Pairwise (fun u v => ¬ v.score < MIN_SIMILARITY_THRESHOLD →
      ¬ u.score < MIN_SIMILARITY_THRESHOLD) := by
  unfold rankedOf
  induction hits with
  | nil => simp [pySorted]
  | cons x rest ih =>
    simp only [pySorted]
    exact pairwise_insertRanked now x _ ih

/-- A list in which every above-threshold element precedes every
below-threshold element splits as its above-threshold part followed by its
below-threshold part. -/
theorem pairwise_split :
    ∀ l : List Hit, l.Pairwise (fun u v => ¬ v.score < MIN_SIMILARITY_THRESHOLD →
        ¬ u.score < MIN_SIMILARITY_THRESHOLD) →
      l = (l.filter fun x => decide (¬ x.score < MIN_SIMILARITY_THRESHOLD)) ++
        (l.filter fun x => decide (x.score < MIN_SIMILARITY_THRESHOLD)) := by
  intro l
  induction l with
  | nil => exact fun _ => rfl
  | cons a rest ih =>
    intro hp
    rcases List.pairwise_cons.1 hp with ⟨ha_rest, hp_rest⟩
    by_cases hx : a.score < MIN_SIMILARITY_THRESHOLD
    · have hall : ∀ z ∈ rest, z.score < MIN_SIMILARITY_THRESHOLD := by
        intro z hz
        by_contra hzc
        exact (ha_rest z hz hzc) hx
      have h1 : rest.filter (fun x => decide (¬ x.score < MIN_SIMILARITY_THRESHOLD)) = [] := by
        rw [List.filter_eq_nil_iff]
        intro z hz
        simp [hall z hz]
      have h2 : rest.filter (fun x => decide (x.score < MIN_SIMILARITY_THRESHOLD)) = rest := by
        rw [List.filter_eq_self]
        intro z hz
        exact decide_eq_true (hall z hz)
      rw [List.filter_cons, List.filter_cons, if_neg (by simp [hx]),
        if_pos (by simpa using decide_eq_true hx), h1, h2, List.nil_append]
    · rw [List.filter_cons, List.filter_cons, if_pos (by simpa using decide_eq_true hx),
        if_neg (by simp [hx]), List.cons_append, ← ih hp_rest]

end Mem

/-- Counterexample to C1 as stated: a single raw hit with similarity 0.3,
below the threshold: the selection loop has no threshold test, so with a
free slot the hit IS selected, however low its score. -/
theorem claimC1_cex :
    bHit.score < MIN_SIMILARITY_THRESHOLD ∧
    Mem.retrieveSelect 0 5 [bHit] = [(['w', 'e', 'a', 'k'], bHit)] := by
  constructor
  · norm_num [bHit, MIN_SIMILARITY_THRESHOLD]
  · rw [Mem.retrieveSelect, (show Mem.rankedOf 0 [bHit] = [bHit] from rfl)]
    norm_num [Mem.dedupSelect,
      (show Mem.sig bHit.memory = ['w', 'e', 'a', 'k'] from by decide)]
    decide

/-- Claim C1 (amended): a hit below `MIN_SIMILARITY_THRESHOLD` always has
derived score 0, and it is never selected provided the above-threshold
hits, taken in ranked order, already fill all `k` deduplication slots;
when fewer than `k` above-threshold distinct signatures exist, the
selection loop (which has no threshold test) can still pick it as filler. -/
theorem claimC1 (now : ℚ) (k : Nat) (hits : List Hit) (h : Hit)
    (hsim : h.score < MIN_SIMILARITY_THRESHOLD) :
    Mem.score now h = 0 ∧
    ((Mem.dedupSelect k ((Mem.rankedOf now hits).filter fun x =>
        decide (¬ x.score < MIN_SIMILARITY_THRESHOLD)) []).length = k →
      ∀ s, (s, h) ∉ Mem.retrieveSelect now k hits) := by
  refine ⟨Mem.score_of_lt now h hsim, ?_⟩
  intro hfull s hmem
  have hsplit := Mem.pairwise_split _ (Mem.pairwise_rankedOf now hits)
  have heq : Mem.retrieveSelect now k hits =
      Mem.dedupSelect k ((Mem.rankedOf now hits).filter fun x =>
        decide (¬ x.score < MIN_SIMILARITY_THRESHOLD)) [] := by
    rw [Mem.retrieveSelect]
    conv_lhs => rw [hsplit]
    rw [Mem.dedupSelect_append, Mem.dedupSelect_of_full _ _ _ (le_of_eq hfull.symm)]
  rw [heq] at hmem
  rcases Mem.dedupSelect_mem_spec k _ [] s h hmem with hacc | ⟨_, _, hfind, _⟩
  · simp at hacc
  · have hmem2 := List.mem_of_find?_eq_some hfind
    have habove := List.of_mem_filter hmem2
    rw [decide_eq_true_eq] at habove
    exact habove hsim

/-- Witness for C1 (amended): with one above-threshold hit filling the
single slot, the below-threshold hit has score 0 and is not selected. -/
theorem claimC1_check :
    bHit.score < MIN_SIMILARITY_THRESHOLD ∧
    Mem.score 0 bHit = 0 ∧
    ∀ s, (s, bHit) ∉ Mem.retrieveSelect 0 1 [gHit, bHit] := by
  have hsim : bHit.score < MIN_SIMILARITY_THRESHOLD := by
    norm_num [bHit, MIN_SIMILARITY_THRESHOLD]
  have hrank : Mem.rankedOf 0 [gHit, bHit] = [gHit, bHit] := by
    norm_num [Mem.rankedOf, Mem.pySorted, Mem.insertRanked, Mem.scoreLe, Mem.ageDays,
      Mem.tsIso, TS.timeOr, gHit, bHit, MIN_SIMILARITY_THRESHOLD]
  have hfull : (Mem.dedupSelect 1 ((Mem.rankedOf 0 [gHit, bHit]).filter fun x =>
      decide (¬ x.score < MIN_SIMILARITY_THRESHOLD)) []).length = 1 := by
    rw [hrank]
    norm_num [Mem.dedupSelect, List.filter, gHit, bHit, MIN_SIMILARITY_THRESHOLD,
      (show Mem.sig ['g', 'o', 'o', 'd'] = ['g', 'o', 'o', 'd'] from by decide)]
    rw [if_neg (by decide : ¬ (['g', 'o', 'o', 'd'] : Str) = [])]
    rfl
  have h := claimC1 0 1 [gHit, bHit] bHit hsim
  exact ⟨hsim, h.1, h.2 hfull⟩

/-! ### Grouping lemmas (memory.py date grouping) -/

namespace Mem

theorem retrieveSelect_mem (now : ℚ) (k : Nat) (hits : List Hit) {s : Str} {h : Hit}
    (hmem : (s, h) ∈ retrieveSelect now k hits) : h ∈ hits := by
  rcases dedupSelect_mem_spec k _ [] s h hmem with hacc | ⟨_, _, hfind, _⟩
  · simp at hacc
  · exact (mem_pySorted _ h hits).1 (List.mem_of_find?_eq_some hfind)

theorem groupHits_ok (off : ℚ) :
    ∀ l : List Hit, (∀ h ∈ l, TS.parseOk (tsIso h) = true) →
      ∀ acc, ∃ gs, groupHits off acc l = Except.ok gs := by
  intro l
  induction l with
  | nil => exact fun _ acc => ⟨acc, rfl⟩
  | cons h rest ih =>
    intro hall acc
    have hh := hall h (List.mem_cons_self h rest)
    cases hts : tsIso h with
    | valid t =>
      simp only [groupHits, hts]
      exact ih (fun x hx => hall x (List.mem_cons_of_mem h hx)) _
    | empty =>
      rw [hts] at hh
      simp [TS.parseOk] at hh
    | invalid =>
      rw [hts] at hh
      simp [TS.parseOk] at hh

end Mem

/-- Counterexample to C3 as stated: a single above-threshold hit whose
resolved timestamp is unparsable: scoring survives (treated as age zero),
the hit is selected, and then the UNGUARDED `datetime.fromisoformat` of
the date-grouping loop raises, so `retrieve` errors instead of returning a
string. -/
theorem claimC3_cex :
    Mem.retrieve 0 1 ['h', 'i'] 5 [badTsHit] = Except.error () := by
  rfl

/-- Claim C3 (amended): scoring never raises — a hit whose resolved
timestamp is unparsable or absent gets age zero there — and `retrieve`
completes and returns a string whenever every hit's resolved timestamp
parses; but the date-grouping loop re-parses timestamps with no guard, so
a selected hit with an unparsable timestamp makes `retrieve` raise (see
the counterexample). -/
theorem claimC3 (now off : ℚ) (query : Str) (k : Nat) (hits : List Hit) :
    (∀ h : Hit, TS.parseOk (Mem.tsIso h) = false → Mem.ageDays now h = 0) ∧
    ((∀ h ∈ hits, TS.parseOk (Mem.tsIso h) = true) →
      ∃ s, Mem.retrieve now off query k hits = Except.ok s) := by
  constructor
  · intro h hbad
    unfold Mem.ageDays
    cases hts : Mem.tsIso h with
    | valid t =>
      rw [hts] at hbad
      simp [TS.parseOk] at hbad
    | empty =>
      simp [TS.timeOr, sub_self, zero_div, Int.floor_zero]
    | invalid =>
      simp [TS.timeOr, sub_self, zero_div, Int.floor_zero]
  · intro hall
    unfold Mem.retrieve
    by_cases hq : pyStrip query = []
    · rw [if_pos hq]
      exact ⟨[], rfl⟩
    · rw [if_neg hq]
      have hall2 : ∀ x ∈ (Mem.retrieveSelect now k hits).map Prod.snd,
          TS.parseOk (Mem.tsIso x) = true := by
        intro x hx
        rcases List.mem_map.1 hx with ⟨⟨s, h⟩, hmem, rfl⟩
        exact hall _ (Mem.retrieveSelect_mem now k hits hmem)
      obtain ⟨gs, hgs⟩ := Mem.groupHits_ok off _ hall2 []
      rw [hgs]
      exact ⟨_, rfl⟩

/-- Witness for C3 (amended): the unparsable-timestamp hit scores with age
zero, and retrieval over a well-timestamped hit list returns a string. -/
theorem claimC3_check :
    Mem.ageDays 0 badTsHit = 0 ∧
    ∃ s, Mem.retrieve 0 1 ['h', 'i'] 5 [gHit] = Except.ok s := by
  have h := claimC3 0 1 ['h', 'i'] 5 [gHit]
  exact ⟨h.1 badTsHit (by decide), h.2 (by decide)⟩
